import Mathlib

/-!
# ZooKeeper register plugin (`plugin/zookeeper_register.go`)

A shallow embedding of `mkdirs`, `Register` and `Unregister`.

* Go strings are sequences of bytes; they are embedded as `List Char`.  The only
  byte the code inspects is `'/'`, and in UTF-8 that byte occurs only as the
  character `'/'`, so splitting and comparing by character agrees with the
  byte-level behaviour.
* The connection `*zk.Conn` belongs to an external library.  It is embedded as a
  record of three operations over an arbitrary state `σ` (`Conn σ`): every
  deterministic coordination service, scripted oracle or racing peer is an
  instance.  `logged` instruments a connection so that every call issued
  through it is appended to a log.
* `treeConn` is the tree model the properties refer to: a set of existing
  nodes, where create fails when the node exists or its parent is missing and
  delete removes the node.
* `fmt.Printf` output is returned as a list of `Printed` events.
-/

namespace ZkRegister

/-! ## Values of the external library -/

/-- Go `error` values that can reach this code: the two `errors.New` values of
`mkdirs` and the errors of the zookeeper client. -/
inductive GoError
  | pathEmpty          -- errors.New("path should not been empty")
  | pathNotAbsolute    -- errors.New("path must start with /")
  | ErrNodeExists
  | ErrNoNode
  | ErrNotEmpty
  | ErrNoAuth
  | ErrConnectionClosed
  | other (code : Int)
  deriving DecidableEq, Repr

/-- Entry of an access-control list (`zk.ACL`). -/
structure ACL where
  Perms : Int
  Scheme : List Char
  ID : List Char
  deriving DecidableEq, Repr

/-- The permission mask `zk.PermAll`. -/
def PermAll : Int := 31

/-- The node flag `zk.FlagEphemeral`. -/
def FlagEphemeral : Int := 1

/-- The list `zk.WorldACL(perms)`. -/
def WorldACL (perms : Int) : List ACL :=
  [{ Perms := perms, Scheme := "world".toList, ID := "anyone".toList }]

/-- The connection: `Exists` returns `(bool, *Stat, error)` (the `Stat` is dropped at
every call site and is not modelled), `Create` returns `(string, error)`, `Delete`
returns `error`.  Each operation also returns the next state of the service. -/
structure Conn (σ : Type) where
  zkExists : σ → List Char → Bool × Option GoError × σ
  zkCreate : σ → List Char → List Char → Int → List ACL → List Char × Option GoError × σ
  zkDelete : σ → List Char → Int → Option GoError × σ

/-- A call issued on the connection. -/
inductive Call
  | Exists (path : List Char)
  | Create (path : List Char) (data : List Char) (flags : Int) (acl : List ACL)
  | Delete (path : List Char) (version : Int)
  deriving DecidableEq, Repr

/-- The path a call is about. -/
def Call.path : Call → List Char
  | .Exists p => p
  | .Create p _ _ _ => p
  | .Delete p _ => p

/-- Whether a call is a `Delete`. -/
def Call.isDelete : Call → Bool
  | .Delete _ _ => true
  | _ => false

/-- Instrumented connection: behaves as `c` and records every call in order. -/
def logged {σ : Type} (c : Conn σ) : Conn (σ × List Call) where
  zkExists := fun s p =>
    match c.zkExists s.1 p with
    | (b, e, s1) => (b, e, (s1, s.2 ++ [Call.Exists p]))
  zkCreate := fun s p d f a =>
    match c.zkCreate s.1 p d f a with
    | (r, e, s1) => (r, e, (s1, s.2 ++ [Call.Create p d f a]))
  zkDelete := fun s p v =>
    match c.zkDelete s.1 p v with
    | (e, s1) => (e, (s1, s.2 ++ [Call.Delete p v]))

/-- What `fmt.Printf` wrote. -/
inductive Printed
  | deleteOk                      -- "delete: ok\n"
  | deleteFalse (err : GoError)   -- "delete: false because of %v\n"
  deriving DecidableEq, Repr

/-! ## `strings.Split` -/

/-- The call `strings.Split(s, sep)` for a one-byte separator: the pieces between
the separators, `[""]` for the empty string. -/
def splitOn (sep : Char) : List Char → List (List Char)
  | [] => [[]]
  | c :: cs =>
    if c = sep then [] :: splitOn sep cs
    else
      match splitOn sep cs with
      | [] => [[c]]
      | s :: ss => (c :: s) :: ss

/-! ## The source -/

/-- The loop of `mkdirs` (lines 58-67) over the remaining segments, from the
current value of `createdPath`. -/
def mkdirsWalk {σ : Type} (c : Conn σ) : List (List Char) → List Char → σ → Option GoError × σ
  | [], _, s => (none, s)
  | p :: ps, createdPath, s =>
    let createdPath := createdPath ++ ['/'] ++ p
    match c.zkExists s createdPath with
    | (exist, _, s1) =>
      if !exist then
        match c.zkCreate s1 createdPath [] 0 (WorldACL PermAll) with
        | (_, some err, s2) => (some err, s2)
        | (_, none, s2) => mkdirsWalk c ps createdPath s2
      else mkdirsWalk c ps createdPath s1

/-- The function `mkdirs(conn, path)`. -/
def mkdirs {σ : Type} (c : Conn σ) (path : List Char) (s : σ) : Option GoError × σ :=
  if path = [] then (some GoError.pathEmpty, s)
  else if path = ['/'] then (none, s)
  else if path.head? ≠ some '/' then (some GoError.pathNotAbsolute, s)
  else
    match c.zkExists s path with
    | (exist, _, s1) =>
      if exist then (none, s1)
      else
        match c.zkCreate s1 path [] 0 (WorldACL PermAll) with
        | (_, none, s2) => (none, s2)
        | (_, some _, s2) => mkdirsWalk c (splitOn '/' path.tail) [] s2

/-- The plugin's configuration fields (`Conn` is passed separately). -/
structure ZooKeeperRegisterPlugin where
  ServiceAddress : List Char
  ZooKeeperServers : List (List Char)
  BasePath : List Char
  deriving DecidableEq, Repr

/-- The path `BasePath + "/" + name + "/" + ServiceAddress` of the registration node. -/
def regPath (plugin : ZooKeeperRegisterPlugin) (name : List Char) : List Char :=
  plugin.BasePath ++ ['/'] ++ name ++ ['/'] ++ plugin.ServiceAddress

/-- The method `Register(name, rcvr)`; `rcvr` is unused by the source.  Returns the
error, the next state and what was printed. -/
def Register {σ : Type} (c : Conn σ) (plugin : ZooKeeperRegisterPlugin) (name : List Char)
    (s : σ) : Option GoError × σ × List Printed :=
  let nodePath := plugin.BasePath ++ ['/'] ++ name
  match mkdirs c nodePath s with
  | (some err, s1) => (some err, s1, [])
  | (none, s1) =>
    let nodePath := nodePath ++ ['/'] ++ plugin.ServiceAddress
    match c.zkExists s1 nodePath with
    | (true, _, s2) =>
      match c.zkDelete s2 nodePath (-1) with
      | (_, s3) =>
        match c.zkCreate s3 nodePath [] FlagEphemeral (WorldACL PermAll) with
        | (_, err, s4) => (err, s4, [Printed.deleteOk])
    | (false, _, s2) =>
      match c.zkCreate s2 nodePath [] FlagEphemeral (WorldACL PermAll) with
      | (_, err, s3) => (err, s3, [])

/-- The method `Unregister(name)`.  It has no result; the next state and what was
printed are returned. -/
def Unregister {σ : Type} (c : Conn σ) (plugin : ZooKeeperRegisterPlugin) (name : List Char)
    (s : σ) : σ × List Printed :=
  let nodePath := plugin.BasePath ++ ['/'] ++ name ++ ['/'] ++ plugin.ServiceAddress
  match c.zkExists s nodePath with
  | (true, _, s1) =>
    match c.zkDelete s1 nodePath (-1) with
    | (some err, s2) => (s2, [Printed.deleteFalse err])
    | (none, s2) => (s2, [Printed.deleteOk])
  | (false, _, s1) => (s1, [])

/-! ## The tree model of the coordination service -/

/-- A node of the coordination tree. -/
structure Node where
  path : List Char
  data : List Char
  flags : Int
  acl : List ACL
  deriving DecidableEq, Repr

/-- The existing nodes; the root `"/"` exists without a record. -/
abbrev Tree := List Node

/-- Whether a node exists at `p`. -/
def Tree.has (t : Tree) (p : List Char) : Bool :=
  p == ['/'] || t.any (fun n => n.path == p)

/-- The parent of a path: what precedes its last `'/'`, the root when that is empty. -/
def parentPath (p : List Char) : List Char :=
  let q := ((p.reverse.dropWhile (fun ch => ch != '/')).drop 1).reverse
  if q = [] then ['/'] else q

/-- The coordination tree as a connection: `Exists` reads the tree; `Create` fails
with `ErrNodeExists` when the node exists and with `ErrNoNode` when its parent
is missing, and otherwise adds the node; `Delete` removes the node, and fails with
`ErrNoNode` when there is none. -/
def treeConn : Conn Tree where
  zkExists := fun t p => (t.has p, none, t)
  zkCreate := fun t p d f a =>
    if t.has p then ([], some GoError.ErrNodeExists, t)
    else if !t.has (parentPath p) then ([], some GoError.ErrNoNode, t)
    else (p, none, { path := p, data := d, flags := f, acl := a } :: t)
  zkDelete := fun t p _ =>
    if t.any (fun n => n.path == p) then (none, t.filter (fun n => n.path != p))
    else (some GoError.ErrNoNode, t)

/-- The tree invariant: the parent of every existing node exists. -/
def Tree.ParentClosed (t : Tree) : Prop :=
  ∀ n ∈ t, t.has (parentPath n.path) = true

/-- The path `"/" + s₁ + "/" + s₂ + ... + "/" + sₙ` of the segments `s₁ ... sₙ`. -/
def joinPath : List (List Char) → List Char
  | [] => []
  | s :: ss => '/' :: (s ++ joinPath ss)

instance (t : Tree) : Decidable t.ParentClosed := by
  unfold Tree.ParentClosed; infer_instance

/-- The persistent node with empty content that `mkdirs` creates at `q`
(`Create(q, []byte(""), 0, WorldACL(PermAll))`). -/
def placeholder (q : List Char) : Node :=
  { path := q, data := [], flags := 0, acl := WorldACL PermAll }

/-- The ephemeral node that `Register` creates at `q`
(`Create(q, []byte(""), FlagEphemeral, WorldACL(PermAll))`). -/
def ephemeral (q : List Char) : Node :=
  { path := q, data := [], flags := FlagEphemeral, acl := WorldACL PermAll }

/-- The paths `acc + "/" + s₁`, `acc + "/" + s₁ + "/" + s₂`, ... -/
def prefixesFrom : List Char → List (List Char) → List (List Char)
  | _, [] => []
  | acc, p :: ps => (acc ++ '/' :: p) :: prefixesFrom (acc ++ '/' :: p) ps

/-- The ancestor prefixes of an absolute path, itself included:
`"/a"`, `"/a/b"`, `"/a/b/c"` for `"/a/b/c"`. -/
def ancestorPrefixes (path : List Char) : List (List Char) :=
  prefixesFrom [] (splitOn '/' path.tail)

/-- A call of the host on a plugin: `Register(name, rcvr)` or `Unregister(name)`. -/
inductive Op
  | register (plugin : ZooKeeperRegisterPlugin) (name : List Char)
  | unregister (plugin : ZooKeeperRegisterPlugin) (name : List Char)
  deriving DecidableEq, Repr

/-- The registration node path of a call. -/
def Op.regPath : Op → List Char
  | .register plugin name => ZkRegister.regPath plugin name
  | .unregister plugin name => ZkRegister.regPath plugin name

/-- The plugin a call is made on. -/
def Op.plugin : Op → ZooKeeperRegisterPlugin
  | .register plugin _ => plugin
  | .unregister plugin _ => plugin

/-- The service name of a call. -/
def Op.name : Op → List Char
  | .register _ name => name
  | .unregister _ name => name

/-- The state of the service after one call. -/
def runOp {σ : Type} (c : Conn σ) (op : Op) (s : σ) : σ :=
  match op with
  | .register plugin name => (Register c plugin name s).2.1
  | .unregister plugin name => (Unregister c plugin name s).1

/-- The state of the service after a sequence of calls. -/
def runOps {σ : Type} (c : Conn σ) (ops : List Op) (s : σ) : σ :=
  ops.foldl (fun st op => runOp c op st) s

/-! ## Oracles used as concrete inputs -/

/-- A peer that races the caller: the tree model, except that right after a
negative existence check on a path whose parent exists the peer creates that
node, so the caller's own create then meets `ErrNodeExists`. -/
def racyConn : Conn Tree where
  zkExists := fun t p =>
    (t.has p, none,
      if !t.has p && t.has (parentPath p) then
        { path := p, data := [], flags := 0, acl := WorldACL PermAll } :: t
      else t)
  zkCreate := treeConn.zkCreate
  zkDelete := treeConn.zkDelete

/-- A service that answers every existence check with "no" and every create with
`ErrNodeExists`. -/
def busyConn : Conn Unit where
  zkExists := fun _ _ => (false, none, ())
  zkCreate := fun _ _ _ _ _ => ([], some GoError.ErrNodeExists, ())
  zkDelete := fun _ _ _ => (none, ())

/-- The tree model with the delete of the real service: a node that has children is
not removed, the delete fails with `ErrNotEmpty`. -/
def strictConn : Conn Tree where
  zkExists := treeConn.zkExists
  zkCreate := treeConn.zkCreate
  zkDelete := fun t p v =>
    if t.any (fun n => n.path != p && parentPath n.path == p) then (some GoError.ErrNotEmpty, t)
    else treeConn.zkDelete t p v

/-- A service on which the registration node is stuck: every node exists, every
delete fails with `ed` and every create fails with `ErrNodeExists`. -/
def stuckConn (ed : GoError) : Conn Unit where
  zkExists := fun _ _ => (true, none, ())
  zkCreate := fun _ _ _ _ _ => ([], some GoError.ErrNodeExists, ())
  zkDelete := fun _ _ _ => (some ed, ())

/-- The configuration of the end-to-end scenario. -/
def rpcxPlugin : ZooKeeperRegisterPlugin :=
  { ServiceAddress := "127.0.0.1:8972".toList, ZooKeeperServers := [], BasePath := "/rpcx".toList }

/-- A tree in which the registration node of the end-to-end scenario is already there
as a persistent node with a child. -/
def occupiedTree : Tree :=
  [placeholder "/rpcx/Arith/127.0.0.1:8972/x".toList,
   placeholder "/rpcx/Arith/127.0.0.1:8972".toList,
   placeholder "/rpcx/Arith".toList, placeholder "/rpcx".toList]

/-! ## Lemmas on paths -/

theorem joinPath_append (xs ys : List (List Char)) :
    joinPath (xs ++ ys) = joinPath xs ++ joinPath ys := by
  induction xs with
  | nil => rfl
  | cons x xs ih => simp [joinPath, ih]

theorem joinPath_snoc (xs : List (List Char)) (s : List Char) :
    joinPath (xs ++ [s]) = joinPath xs ++ '/' :: s := by
  simp [joinPath_append, joinPath]

theorem splitOn_ne_nil (sep : Char) (r : List Char) : splitOn sep r ≠ [] := by
  induction r with
  | nil => simp [splitOn]
  | cons c cs ih =>
    unfold splitOn
    split
    · simp
    · split <;> simp

/-- Joining the pieces of `strings.Split(r, "/")` behind slashes gives back `"/" + r`. -/
theorem joinPath_splitOn (r : List Char) : joinPath (splitOn '/' r) = '/' :: r := by
  induction r with
  | nil => simp [splitOn, joinPath]
  | cons c cs ih =>
    unfold splitOn
    split
    · next h => subst h; simp [joinPath, ih]
    · split
      · next h => exact absurd h (splitOn_ne_nil _ _)
      · next s ss h =>
        rw [h] at ih
        simp only [joinPath, List.cons_append, List.cons.injEq, true_and] at ih ⊢
        rw [ih]

theorem splitOn_segment_append (s r : List Char) (hs : '/' ∉ s) :
    splitOn '/' (s ++ '/' :: r) = s :: splitOn '/' r := by
  induction s with
  | nil => simp [splitOn]
  | cons c cs ih =>
    have hc : c ≠ '/' := fun h => hs (by simp [h])
    have hcs : '/' ∉ cs := fun h => hs (by simp [h])
    simp only [List.cons_append]
    rw [splitOn, if_neg hc, ih hcs]

theorem splitOn_segment (s : List Char) (hs : '/' ∉ s) : splitOn '/' s = [s] := by
  induction s with
  | nil => simp [splitOn]
  | cons c cs ih =>
    have hc : c ≠ '/' := fun h => hs (by simp [h])
    have hcs : '/' ∉ cs := fun h => hs (by simp [h])
    rw [splitOn, if_neg hc, ih hcs]

/-- The pieces of a path built from slash-free segments are those segments. -/
theorem splitOn_joinPath (s : List Char) (ss : List (List Char))
    (h : ∀ x ∈ s :: ss, '/' ∉ x) : splitOn '/' (s ++ joinPath ss) = s :: ss := by
  induction ss generalizing s with
  | nil => simpa [joinPath] using splitOn_segment s (h s (by simp))
  | cons x xs ih =>
    have hs : '/' ∉ s := h s (by simp)
    have hx : ∀ y ∈ x :: xs, '/' ∉ y := fun y hy => h y (List.mem_cons_of_mem _ hy)
    simp only [joinPath]
    rw [splitOn_segment_append s _ hs, ih x hx]

theorem splitOn_slash_free (r : List Char) : ∀ s ∈ splitOn '/' r, '/' ∉ s := by
  induction r with
  | nil => simp [splitOn]
  | cons c cs ih =>
    unfold splitOn
    split
    · intro s hs
      rcases List.mem_cons.1 hs with h | h
      · subst h; simp
      · exact ih s h
    · next hc =>
      split
      · intro s hs
        simp only [List.mem_singleton] at hs
        subst hs
        simpa using fun h => hc h.symm
      · next s0 ss h =>
        rw [h] at ih
        intro s hs
        rcases List.mem_cons.1 hs with h1 | h1
        · subst h1
          have := ih s0 (by simp)
          simp only [List.mem_cons, not_or]
          exact ⟨fun h => hc h.symm, this⟩
        · exact ih s (List.mem_cons_of_mem _ h1)

theorem dropWhile_ne_slash (s r : List Char) (hs : '/' ∉ s) :
    (s ++ '/' :: r).dropWhile (fun ch => ch != '/') = '/' :: r := by
  induction s with
  | nil => simp [List.dropWhile]
  | cons c cs ih =>
    have hc : c ≠ '/' := fun h => hs (by simp [h])
    have hcs : '/' ∉ cs := fun h => hs (by simp [h])
    have hb : (c != '/') = true := by simpa using hc
    simp only [List.cons_append, List.dropWhile_cons, hb, if_true, ih hcs]

/-- The parent of `acc + "/" + s`, for a slash-free `s`, is `acc` (the root when
`acc` is empty). -/
theorem parentPath_snoc (acc s : List Char) (hs : '/' ∉ s) :
    parentPath (acc ++ '/' :: s) = if acc = [] then ['/'] else acc := by
  have hs' : '/' ∉ s.reverse := by simpa using hs
  have : (acc ++ '/' :: s).reverse = s.reverse ++ '/' :: acc.reverse := by simp
  unfold parentPath
  simp only [this, dropWhile_ne_slash _ _ hs']
  simp

/-! ## Lemmas on the source over an arbitrary connection -/

theorem logged_zkExists {σ : Type} (c : Conn σ) (st : σ × List Call) (p : List Char) :
    (logged c).zkExists st p =
      ((c.zkExists st.1 p).1, (c.zkExists st.1 p).2.1,
        ((c.zkExists st.1 p).2.2, st.2 ++ [Call.Exists p])) := rfl

theorem logged_zkCreate {σ : Type} (c : Conn σ) (st : σ × List Call) (p d : List Char)
    (f : Int) (a : List ACL) :
    (logged c).zkCreate st p d f a =
      ((c.zkCreate st.1 p d f a).1, (c.zkCreate st.1 p d f a).2.1,
        ((c.zkCreate st.1 p d f a).2.2, st.2 ++ [Call.Create p d f a])) := rfl

theorem logged_zkDelete {σ : Type} (c : Conn σ) (st : σ × List Call) (p : List Char)
    (v : Int) :
    (logged c).zkDelete st p v =
      ((c.zkDelete st.1 p v).1, ((c.zkDelete st.1 p v).2, st.2 ++ [Call.Delete p v])) := rfl

/-- The method `Register`, by what the calls return. -/
theorem Register_eq {σ : Type} (c : Conn σ) (plugin : ZooKeeperRegisterPlugin)
    (name : List Char) (s : σ) :
    Register c plugin name s =
      match (mkdirs c (plugin.BasePath ++ ['/'] ++ name) s).1 with
      | some err => (some err, (mkdirs c (plugin.BasePath ++ ['/'] ++ name) s).2, [])
      | none =>
        if (c.zkExists (mkdirs c (plugin.BasePath ++ ['/'] ++ name) s).2 (regPath plugin name)).1
            = true then
          ((c.zkCreate (c.zkDelete
              (c.zkExists (mkdirs c (plugin.BasePath ++ ['/'] ++ name) s).2
                (regPath plugin name)).2.2 (regPath plugin name) (-1)).2
              (regPath plugin name) [] FlagEphemeral (WorldACL PermAll)).2.1,
           (c.zkCreate (c.zkDelete
              (c.zkExists (mkdirs c (plugin.BasePath ++ ['/'] ++ name) s).2
                (regPath plugin name)).2.2 (regPath plugin name) (-1)).2
              (regPath plugin name) [] FlagEphemeral (WorldACL PermAll)).2.2,
           [Printed.deleteOk])
        else
          ((c.zkCreate
              (c.zkExists (mkdirs c (plugin.BasePath ++ ['/'] ++ name) s).2
                (regPath plugin name)).2.2
              (regPath plugin name) [] FlagEphemeral (WorldACL PermAll)).2.1,
           (c.zkCreate
              (c.zkExists (mkdirs c (plugin.BasePath ++ ['/'] ++ name) s).2
                (regPath plugin name)).2.2
              (regPath plugin name) [] FlagEphemeral (WorldACL PermAll)).2.2,
           []) := by
  have hrp : plugin.BasePath ++ ['/'] ++ name ++ ['/'] ++ plugin.ServiceAddress
      = regPath plugin name := rfl
  rcases hmk : mkdirs c (plugin.BasePath ++ ['/'] ++ name) s with ⟨e, s1⟩
  cases e with
  | some err => simp only [Register, hmk]
  | none =>
    rcases hx : c.zkExists s1 (regPath plugin name) with ⟨b, e0, s2⟩
    simp only [Register, hmk, hrp, hx]
    cases b with
    | true =>
      rcases hd : c.zkDelete s2 (regPath plugin name) (-1) with ⟨ed, s3⟩
      simp only [hd, if_true]
    | false =>
      simp only [Bool.false_eq_true, if_false]

/-- The method `Unregister`, by what the calls return. -/
theorem Unregister_eq {σ : Type} (c : Conn σ) (plugin : ZooKeeperRegisterPlugin)
    (name : List Char) (s : σ) :
    Unregister c plugin name s =
      if (c.zkExists s (regPath plugin name)).1 = true then
        ((c.zkDelete (c.zkExists s (regPath plugin name)).2.2 (regPath plugin name) (-1)).2,
          match (c.zkDelete (c.zkExists s (regPath plugin name)).2.2
              (regPath plugin name) (-1)).1 with
          | some err => [Printed.deleteFalse err]
          | none => [Printed.deleteOk])
      else ((c.zkExists s (regPath plugin name)).2.2, []) := by
  have hrp : plugin.BasePath ++ ['/'] ++ name ++ ['/'] ++ plugin.ServiceAddress
      = regPath plugin name := rfl
  rcases hx : c.zkExists s (regPath plugin name) with ⟨b, e0, s1⟩
  simp only [Unregister, hrp, hx]
  cases b with
  | true =>
    rcases hd : c.zkDelete s1 (regPath plugin name) (-1) with ⟨ed, s2⟩
    cases ed <;> simp only [hd, if_true]
  | false =>
    simp only [Bool.false_eq_true, if_false]

theorem mkdirsWalk_nil {σ : Type} (c : Conn σ) (acc : List Char) (s : σ) :
    mkdirsWalk c [] acc s = (none, s) := rfl

/-- One turn of the loop, by what `Exists` and `Create` return. -/
theorem mkdirsWalk_cons {σ : Type} (c : Conn σ) (p : List Char) (ps : List (List Char))
    (acc : List Char) (s : σ) :
    mkdirsWalk c (p :: ps) acc s =
      if (c.zkExists s (acc ++ '/' :: p)).1 = true then
        mkdirsWalk c ps (acc ++ '/' :: p) (c.zkExists s (acc ++ '/' :: p)).2.2
      else
        match (c.zkCreate (c.zkExists s (acc ++ '/' :: p)).2.2 (acc ++ '/' :: p) [] 0
            (WorldACL PermAll)).2.1 with
        | some err =>
          (some err, (c.zkCreate (c.zkExists s (acc ++ '/' :: p)).2.2 (acc ++ '/' :: p) [] 0
            (WorldACL PermAll)).2.2)
        | none =>
          mkdirsWalk c ps (acc ++ '/' :: p)
            (c.zkCreate (c.zkExists s (acc ++ '/' :: p)).2.2 (acc ++ '/' :: p) [] 0
              (WorldACL PermAll)).2.2 := by
  rcases hx : c.zkExists s (acc ++ '/' :: p) with ⟨b, e, s1⟩
  rcases hc : c.zkCreate s1 (acc ++ '/' :: p) [] 0 (WorldACL PermAll) with ⟨r, e2, s2⟩
  have hx' : c.zkExists s (acc ++ ['/'] ++ p) = (b, e, s1) := by simpa using hx
  have hc' : c.zkCreate s1 (acc ++ ['/'] ++ p) [] 0 (WorldACL PermAll) = (r, e2, s2) := by
    simpa using hc
  rw [mkdirsWalk]
  simp only [hx', hc']
  cases b <;> cases e2 <;> simp [hc]

/-- The walk over `pre ++ rest` is the walk over `pre` followed, when that returns no
error, by the walk over `rest` from the accumulated path. -/
theorem mkdirsWalk_append {σ : Type} (c : Conn σ) (pre rest : List (List Char)) :
    ∀ (acc : List Char) (s : σ),
      mkdirsWalk c (pre ++ rest) acc s =
        match mkdirsWalk c pre acc s with
        | (some err, s1) => (some err, s1)
        | (none, s1) => mkdirsWalk c rest (acc ++ joinPath pre) s1 := by
  induction pre with
  | nil => intro acc s; simp [mkdirsWalk_nil, joinPath]
  | cons p ps ih =>
    intro acc s
    have hj : acc ++ joinPath (p :: ps) = (acc ++ '/' :: p) ++ joinPath ps := by
      simp [joinPath]
    simp only [List.cons_append, mkdirsWalk_cons, hj]
    split
    · rw [ih]
    · split
      · rfl
      · rw [ih]

/-- The body of `mkdirs` for a path that passed the three checks. -/
theorem mkdirs_absolute {σ : Type} (c : Conn σ) (r : List Char) (s : σ) (hr : r ≠ []) :
    mkdirs c ('/' :: r) s =
      if (c.zkExists s ('/' :: r)).1 = true then (none, (c.zkExists s ('/' :: r)).2.2)
      else
        match (c.zkCreate (c.zkExists s ('/' :: r)).2.2 ('/' :: r) [] 0 (WorldACL PermAll)).2.1 with
        | none =>
          (none, (c.zkCreate (c.zkExists s ('/' :: r)).2.2 ('/' :: r) [] 0 (WorldACL PermAll)).2.2)
        | some _ =>
          mkdirsWalk c (splitOn '/' r) []
            (c.zkCreate (c.zkExists s ('/' :: r)).2.2 ('/' :: r) [] 0 (WorldACL PermAll)).2.2 := by
  rcases hx : c.zkExists s ('/' :: r) with ⟨b, e, s1⟩
  rcases hc : c.zkCreate s1 ('/' :: r) [] 0 (WorldACL PermAll) with ⟨q, e2, s2⟩
  unfold mkdirs
  simp only [hx, hc]
  cases b <;> cases e2 <;> simp [hr]

/-- Every call that the walk issues is an existence check or a create, about a path
no longer than the full path. -/
theorem mkdirsWalk_log {σ : Type} (c : Conn σ) (segs : List (List Char)) :
    ∀ (acc : List Char) (s : σ) (l : List Call),
      ∀ call ∈ (mkdirsWalk (logged c) segs acc (s, l)).2.2,
        call ∈ l ∨ (call.isDelete = false ∧
          call.path.length ≤ acc.length + (joinPath segs).length) := by
  induction segs with
  | nil => intro acc s l call h; exact Or.inl (by simpa [mkdirsWalk_nil] using h)
  | cons p ps ih =>
    intro acc s l call
    have hlen : (acc ++ '/' :: p).length + (joinPath ps).length
        = acc.length + (joinPath (p :: ps)).length := by
      simp [joinPath]; omega
    have hle : (acc ++ '/' :: p).length ≤ acc.length + (joinPath (p :: ps)).length := by omega
    have key : ∀ call ∈ l ++ [Call.Exists (acc ++ '/' :: p)] ++
        [Call.Create (acc ++ '/' :: p) [] 0 (WorldACL PermAll)],
        call ∈ l ∨ (call.isDelete = false ∧
          call.path.length ≤ acc.length + (joinPath (p :: ps)).length) := by
      intro call h
      simp only [List.mem_append, List.mem_singleton] at h
      rcases h with (h | h) | h
      · exact Or.inl h
      · subst h; exact Or.inr ⟨rfl, hle⟩
      · subst h; exact Or.inr ⟨rfl, hle⟩
    rw [mkdirsWalk_cons]
    simp only [logged_zkExists, logged_zkCreate]
    split
    · intro h
      rcases ih _ _ _ call h with h1 | ⟨h1, h2⟩
      · exact key call (List.mem_append_left _ h1)
      · exact Or.inr ⟨h1, by omega⟩
    · split
      · intro h; exact key call h
      · intro h
        rcases ih _ _ _ call h with h1 | ⟨h1, h2⟩
        · exact key call h1
        · exact Or.inr ⟨h1, by omega⟩

/-- Every call that `mkdirs` issues is an existence check or a create, about a path no
longer than its argument. -/
theorem mkdirs_log {σ : Type} (c : Conn σ) (path : List Char) (s : σ) (l : List Call) :
    ∀ call ∈ (mkdirs (logged c) path (s, l)).2.2,
      call ∈ l ∨ (call.isDelete = false ∧ call.path.length ≤ path.length) := by
  intro call
  by_cases h1 : path = []
  · subst h1; intro h; exact Or.inl (by simpa [mkdirs] using h)
  by_cases h2 : path = ['/']
  · subst h2; intro h; exact Or.inl (by simpa [mkdirs] using h)
  by_cases h3 : path.head? = some '/'
  · obtain ⟨r, rfl⟩ : ∃ r, path = '/' :: r := by
      cases path with
      | nil => exact absurd rfl h1
      | cons a r => simp at h3; exact ⟨r, by rw [h3]⟩
    have hr : r ≠ [] := fun h => h2 (by rw [h])
    rw [mkdirs_absolute _ _ _ hr]
    simp only [logged_zkExists, logged_zkCreate]
    have key : ∀ call ∈ l ++ [Call.Exists ('/' :: r)] ++
        [Call.Create ('/' :: r) [] 0 (WorldACL PermAll)],
        call ∈ l ∨ (call.isDelete = false ∧ call.path.length ≤ ('/' :: r).length) := by
      intro call h
      simp only [List.mem_append, List.mem_singleton] at h
      rcases h with (h | h) | h
      · exact Or.inl h
      · subst h; exact Or.inr ⟨rfl, le_refl _⟩
      · subst h; exact Or.inr ⟨rfl, le_refl _⟩
    split
    · intro h; exact key call (List.mem_append_left _ h)
    · split
      · intro h; exact key call h
      · intro h
        rcases mkdirsWalk_log c _ _ _ _ call h with h4 | ⟨h4, h5⟩
        · exact key call h4
        · rw [joinPath_splitOn] at h5
          exact Or.inr ⟨h4, by simpa using h5⟩
  · intro h
    exact Or.inl (by simpa [mkdirs, h1, h2, h3] using h)

/-- When `mkdirs` fails, `Register` stops there. -/
theorem Register_of_mkdirs_error {σ : Type} (c : Conn σ) (plugin : ZooKeeperRegisterPlugin)
    (name : List Char) (s : σ) (e : GoError)
    (h : (mkdirs c (plugin.BasePath ++ ['/'] ++ name) s).1 = some e) :
    Register c plugin name s = (some e, (mkdirs c (plugin.BasePath ++ ['/'] ++ name) s).2, []) := by
  rcases hmk : mkdirs c (plugin.BasePath ++ ['/'] ++ name) s with ⟨e', s1⟩
  rw [hmk] at h
  simp only at h
  subst h
  simp only [Register, hmk]

/-- Every delete that `Register` issues is at the registration node path. -/
theorem Register_log {σ : Type} (c : Conn σ) (plugin : ZooKeeperRegisterPlugin)
    (name : List Char) (s : σ) (l : List Call) :
    ∀ call ∈ (Register (logged c) plugin name (s, l)).2.1.2,
      call ∈ l ∨ call.isDelete = false ∨ call.path = regPath plugin name := by
  intro call
  have hlog := mkdirs_log c (plugin.BasePath ++ ['/'] ++ name) s l call
  rw [Register_eq]
  generalize mkdirs (logged c) (plugin.BasePath ++ ['/'] ++ name) (s, l) = m at hlog ⊢
  obtain ⟨e, s1, l1⟩ := m
  have hl1 : call ∈ l1 → call ∈ l ∨ call.isDelete = false ∨ call.path = regPath plugin name := by
    intro h
    rcases hlog h with h1 | ⟨h1, _⟩
    · exact Or.inl h1
    · exact Or.inr (Or.inl h1)
  cases e with
  | some err => exact hl1
  | none =>
    simp only [logged_zkExists, logged_zkDelete, logged_zkCreate]
    split
    · simp only [List.mem_append, List.mem_singleton]
      rintro (((h | h) | h) | h)
      · exact hl1 h
      · subst h; exact Or.inr (Or.inr rfl)
      · subst h; exact Or.inr (Or.inr rfl)
      · subst h; exact Or.inr (Or.inr rfl)
    · simp only [List.mem_append, List.mem_singleton]
      rintro ((h | h) | h)
      · exact hl1 h
      · subst h; exact Or.inr (Or.inr rfl)
      · subst h; exact Or.inr (Or.inr rfl)

/-- Every delete that `Unregister` issues is at the registration node path. -/
theorem Unregister_log {σ : Type} (c : Conn σ) (plugin : ZooKeeperRegisterPlugin)
    (name : List Char) (s : σ) (l : List Call) :
    ∀ call ∈ (Unregister (logged c) plugin name (s, l)).1.2,
      call ∈ l ∨ call.isDelete = false ∨ call.path = regPath plugin name := by
  intro call
  rw [Unregister_eq]
  simp only [logged_zkExists, logged_zkDelete]
  split
  · simp only [List.mem_append, List.mem_singleton]
    rintro ((h | h) | h)
    · exact Or.inl h
    · subst h; exact Or.inr (Or.inr rfl)
    · subst h; exact Or.inr (Or.inr rfl)
  · simp only [List.mem_append, List.mem_singleton]
    rintro (h | h)
    · exact Or.inl h
    · subst h; exact Or.inr (Or.inr rfl)

theorem runOps_cons {σ : Type} (c : Conn σ) (op : Op) (ops : List Op) (s : σ) :
    runOps c (op :: ops) s = runOps c ops (runOp c op s) := rfl

/-- Every delete issued during a sequence of calls is at the registration node path of
one of them. -/
theorem runOps_log {σ : Type} (c : Conn σ) (ops : List Op) :
    ∀ (s : σ) (l : List Call), ∀ call ∈ (runOps (logged c) ops (s, l)).2,
      call ∈ l ∨ call.isDelete = false ∨ ∃ op ∈ ops, call.path = op.regPath := by
  induction ops with
  | nil => intro s l call h; exact Or.inl h
  | cons op ops ih =>
    intro s l call h
    rw [runOps_cons] at h
    have hstep : ∀ call ∈ (runOp (logged c) op (s, l)).2,
        call ∈ l ∨ call.isDelete = false ∨ call.path = op.regPath := by
      cases op with
      | register plugin name => exact Register_log c plugin name s l
      | unregister plugin name => exact Unregister_log c plugin name s l
    rcases ih (runOp (logged c) op (s, l)).1 (runOp (logged c) op (s, l)).2 call h with
      h1 | h1 | ⟨o, ho, h1⟩
    · rcases hstep call h1 with h2 | h2 | h2
      · exact Or.inl h2
      · exact Or.inr (Or.inl h2)
      · exact Or.inr (Or.inr ⟨op, by simp, h2⟩)
    · exact Or.inr (Or.inl h1)
    · exact Or.inr (Or.inr ⟨o, by simp [ho], h1⟩)

/-! ## Lemmas on the tree model -/

theorem Tree.has_iff (t : Tree) (p : List Char) :
    t.has p = true ↔ p = ['/'] ∨ ∃ n ∈ t, n.path = p := by
  simp [Tree.has]

theorem Tree.has_false_iff (t : Tree) (p : List Char) :
    t.has p = false ↔ p ≠ ['/'] ∧ ∀ n ∈ t, n.path ≠ p := by
  simp [Tree.has]

theorem Tree.has_root (t : Tree) : t.has ['/'] = true := by simp [Tree.has]

theorem Tree.has_of_mem (t : Tree) (n : Node) (h : n ∈ t) : t.has n.path = true :=
  (Tree.has_iff t _).2 (Or.inr ⟨n, h, rfl⟩)

theorem Tree.has_mono (t u : Tree) (p : List Char) (h : ∀ n ∈ t, n ∈ u)
    (hp : t.has p = true) : u.has p = true := by
  rcases (Tree.has_iff t p).1 hp with h1 | ⟨n, hn, h1⟩
  · exact (Tree.has_iff u p).2 (Or.inl h1)
  · exact (Tree.has_iff u p).2 (Or.inr ⟨n, h n hn, h1⟩)

theorem Tree.has_cons (n : Node) (t : Tree) (p : List Char) :
    Tree.has (n :: t) p = true ↔ n.path = p ∨ t.has p = true := by
  simp only [Tree.has_iff, List.mem_cons]
  constructor
  · rintro (h | ⟨m, hm | hm, h⟩)
    · exact Or.inr (Or.inl h)
    · subst hm; exact Or.inl h
    · exact Or.inr (Or.inr ⟨m, hm, h⟩)
  · rintro (h | h | ⟨m, hm, h⟩)
    · exact Or.inr ⟨n, Or.inl rfl, h⟩
    · exact Or.inl h
    · exact Or.inr ⟨m, Or.inr hm, h⟩

theorem treeConn_zkExists (t : Tree) (p : List Char) :
    treeConn.zkExists t p = (t.has p, none, t) := rfl

theorem treeConn_zkCreate_ok (t : Tree) (p d : List Char) (f : Int) (a : List ACL)
    (h1 : t.has p = false) (h2 : t.has (parentPath p) = true) :
    treeConn.zkCreate t p d f a = (p, none, { path := p, data := d, flags := f, acl := a } :: t) := by
  simp [treeConn, h1, h2]

theorem treeConn_zkCreate_exists (t : Tree) (p d : List Char) (f : Int) (a : List ACL)
    (h1 : t.has p = true) :
    treeConn.zkCreate t p d f a = ([], some GoError.ErrNodeExists, t) := by
  simp [treeConn, h1]

theorem treeConn_zkCreate_noparent (t : Tree) (p d : List Char) (f : Int) (a : List ACL)
    (h1 : t.has p = false) (h2 : t.has (parentPath p) = false) :
    treeConn.zkCreate t p d f a = ([], some GoError.ErrNoNode, t) := by
  simp [treeConn, h1, h2]

/-- Adding a node whose parent exists keeps the tree invariant. -/
theorem ParentClosed_cons (t : Tree) (n : Node) (ht : t.ParentClosed)
    (hn : t.has (parentPath n.path) = true) : Tree.ParentClosed (n :: t) := by
  intro m hm
  rcases List.mem_cons.1 hm with h | h
  · subst h
    exact Tree.has_mono t _ _ (fun x hx => List.mem_cons_of_mem _ hx) hn
  · exact Tree.has_mono t _ _ (fun x hx => List.mem_cons_of_mem _ hx) (ht m h)

theorem prefixesFrom_snoc (segs : List (List Char)) (s : List Char) :
    ∀ acc : List Char, prefixesFrom acc (segs ++ [s]) =
      prefixesFrom acc segs ++ [acc ++ joinPath segs ++ '/' :: s] := by
  induction segs with
  | nil => intro acc; simp [prefixesFrom, joinPath]
  | cons p ps ih => intro acc; simp [prefixesFrom, joinPath, ih]

/-- The last accumulated prefix is the whole path. -/
theorem joinPath_mem_prefixesFrom (segs : List (List Char)) (hne : segs ≠ []) :
    ∀ acc : List Char, acc ++ joinPath segs ∈ prefixesFrom acc segs := by
  induction segs with
  | nil => exact absurd rfl hne
  | cons p ps ih =>
    intro acc
    by_cases hps : ps = []
    · subst hps; simp [prefixesFrom, joinPath]
    · have := ih hps (acc ++ '/' :: p)
      simp only [prefixesFrom, joinPath, List.mem_cons]
      right
      simpa using this

theorem mem_ancestorPrefixes_self (r : List Char) : '/' :: r ∈ ancestorPrefixes ('/' :: r) := by
  have := joinPath_mem_prefixesFrom (splitOn '/' r) (splitOn_ne_nil _ _) []
  rw [joinPath_splitOn] at this
  simpa [ancestorPrefixes] using this

/-- The walk on the tree model, from an accumulated path that exists (or is still
empty), over slash-free segments: it returns no error, keeps every node, leaves
every accumulated prefix existing, adds only placeholders at prefixes that were
missing, and keeps the tree invariant. -/
theorem mkdirsWalk_tree (segs : List (List Char)) :
    ∀ (acc : List Char) (t : Tree), (∀ s ∈ segs, '/' ∉ s) →
      (acc = [] ∨ t.has acc = true) →
      (mkdirsWalk treeConn segs acc t).1 = none ∧
      (∀ n ∈ t, n ∈ (mkdirsWalk treeConn segs acc t).2) ∧
      (∀ q ∈ prefixesFrom acc segs, (mkdirsWalk treeConn segs acc t).2.has q = true) ∧
      (∀ n ∈ (mkdirsWalk treeConn segs acc t).2,
        n ∈ t ∨ ∃ q ∈ prefixesFrom acc segs, n = placeholder q ∧ t.has q = false) ∧
      (t.ParentClosed → ((mkdirsWalk treeConn segs acc t).2).ParentClosed) := by
  induction segs with
  | nil =>
    intro acc t _ _
    simp [mkdirsWalk_nil, prefixesFrom]
  | cons p ps ih =>
    intro acc t hseg hacc
    have hp : '/' ∉ p := hseg p (by simp)
    have hps : ∀ s ∈ ps, '/' ∉ s := fun s hs => hseg s (List.mem_cons_of_mem _ hs)
    have hparent : t.has (parentPath (acc ++ '/' :: p)) = true := by
      rw [parentPath_snoc acc p hp]
      rcases hacc with h | h
      · simp [h, Tree.has_root]
      · by_cases h0 : acc = []
        · simp [h0, Tree.has_root]
        · simpa [h0] using h
    rw [mkdirsWalk_cons]
    simp only [treeConn_zkExists]
    by_cases hq : t.has (acc ++ '/' :: p) = true
    · simp only [hq, if_true]
      obtain ⟨h1, h2, h3, h4, h5⟩ := ih (acc ++ '/' :: p) t hps (Or.inr hq)
      refine ⟨h1, h2, ?_, ?_, h5⟩
      · intro q hmem
        simp only [prefixesFrom, List.mem_cons] at hmem
        rcases hmem with h | h
        · subst h; exact Tree.has_mono t _ _ h2 hq
        · exact h3 q h
      · intro n hn
        rcases h4 n hn with h | ⟨q, hmem, h, h'⟩
        · exact Or.inl h
        · exact Or.inr ⟨q, by simp [prefixesFrom, hmem], h, h'⟩
    · have hq' : t.has (acc ++ '/' :: p) = false := by simpa using hq
      simp only [hq', Bool.false_eq_true, if_false,
        treeConn_zkCreate_ok t _ [] 0 (WorldACL PermAll) hq' hparent]
      have hnew : Tree.has (placeholder (acc ++ '/' :: p) :: t) (acc ++ '/' :: p) = true :=
        (Tree.has_cons _ _ _).2 (Or.inl rfl)
      obtain ⟨h1, h2, h3, h4, h5⟩ :=
        ih (acc ++ '/' :: p) (placeholder (acc ++ '/' :: p) :: t) hps (Or.inr hnew)
      refine ⟨h1, fun n hn => h2 n (List.mem_cons_of_mem _ hn), ?_, ?_, ?_⟩
      · intro q hmem
        simp only [prefixesFrom, List.mem_cons] at hmem
        rcases hmem with h | h
        · subst h; exact Tree.has_mono _ _ _ h2 hnew
        · exact h3 q h
      · intro n hn
        rcases h4 n hn with h | ⟨q, hmem, h, h'⟩
        · rcases List.mem_cons.1 h with h0 | h0
          · exact Or.inr ⟨acc ++ '/' :: p, by simp [prefixesFrom], h0, hq'⟩
          · exact Or.inl h0
        · refine Or.inr ⟨q, by simp [prefixesFrom, hmem], h, ?_⟩
          cases hb : t.has q with
          | false => rfl
          | true =>
            have := Tree.has_mono t (placeholder (acc ++ '/' :: p) :: t) q
              (fun x hx => List.mem_cons_of_mem _ hx) hb
            rw [this] at h'
            exact absurd h' (by simp)
      · intro ht
        exact h5 (ParentClosed_cons t _ ht hparent)

/-- The function `mkdirs` on the tree model, for an absolute path: it returns no
error, keeps every node, leaves the path existing, adds only placeholders at
ancestor prefixes that were missing, and keeps the tree invariant. -/
theorem mkdirs_tree (t : Tree) (r : List Char) :
    (mkdirs treeConn ('/' :: r) t).1 = none ∧
    (∀ n ∈ t, n ∈ (mkdirs treeConn ('/' :: r) t).2) ∧
    (mkdirs treeConn ('/' :: r) t).2.has ('/' :: r) = true ∧
    (∀ n ∈ (mkdirs treeConn ('/' :: r) t).2,
      n ∈ t ∨ ∃ q ∈ ancestorPrefixes ('/' :: r), n = placeholder q ∧ t.has q = false) ∧
    (t.ParentClosed → ((mkdirs treeConn ('/' :: r) t).2).ParentClosed) := by
  by_cases hr : r = []
  · subst hr
    have heq : mkdirs treeConn ['/'] t = (none, t) := by simp [mkdirs]
    rw [heq]
    exact ⟨rfl, fun n hn => hn, Tree.has_root t, fun n hn => Or.inl hn, fun h => h⟩
  by_cases hq : t.has ('/' :: r) = true
  · have heq : mkdirs treeConn ('/' :: r) t = (none, t) := by
      rw [mkdirs_absolute treeConn r t hr]
      simp only [treeConn_zkExists, hq, if_true]
    rw [heq]
    exact ⟨rfl, fun n hn => hn, hq, fun n hn => Or.inl hn, fun h => h⟩
  have hq' : t.has ('/' :: r) = false := by simpa using hq
  by_cases hpar : t.has (parentPath ('/' :: r)) = true
  · have heq : mkdirs treeConn ('/' :: r) t = (none, placeholder ('/' :: r) :: t) := by
      rw [mkdirs_absolute treeConn r t hr]
      simp only [treeConn_zkExists, hq', Bool.false_eq_true, if_false,
        treeConn_zkCreate_ok t _ [] 0 (WorldACL PermAll) hq' hpar]
      rfl
    rw [heq]
    refine ⟨rfl, fun n hn => List.mem_cons_of_mem _ hn, (Tree.has_cons _ _ _).2 (Or.inl rfl), ?_,
      fun ht => ParentClosed_cons t _ ht hpar⟩
    intro n hn
    rcases List.mem_cons.1 hn with h | h
    · exact Or.inr ⟨'/' :: r, mem_ancestorPrefixes_self r, h, hq'⟩
    · exact Or.inl h
  · have hpar' : t.has (parentPath ('/' :: r)) = false := by simpa using hpar
    have heq : mkdirs treeConn ('/' :: r) t = mkdirsWalk treeConn (splitOn '/' r) [] t := by
      rw [mkdirs_absolute treeConn r t hr]
      simp only [treeConn_zkExists, hq', Bool.false_eq_true, if_false,
        treeConn_zkCreate_noparent t _ [] 0 (WorldACL PermAll) hq' hpar']
    rw [heq]
    obtain ⟨h1, h2, h3, h4, h5⟩ :=
      mkdirsWalk_tree (splitOn '/' r) [] t (splitOn_slash_free r) (Or.inl rfl)
    refine ⟨h1, h2, ?_, ?_, h5⟩
    · exact h3 _ (mem_ancestorPrefixes_self r)
    · simpa [ancestorPrefixes] using h4

/-- On the tree model `mkdirs` never removes a node, whatever its argument. -/
theorem mkdirs_tree_mono (t : Tree) (path : List Char) :
    ∀ n ∈ t, n ∈ (mkdirs treeConn path t).2 := by
  cases path with
  | nil => intro n hn; simpa [mkdirs] using hn
  | cons ch r =>
    by_cases h : ch = '/'
    · subst h; exact (mkdirs_tree t r).2.1
    · intro n hn; simpa [mkdirs, h] using hn

/-- On the tree model `mkdirs` of an existing absolute path changes nothing. -/
theorem mkdirs_tree_of_has (t : Tree) (r : List Char) (h : t.has ('/' :: r) = true) :
    mkdirs treeConn ('/' :: r) t = (none, t) := by
  by_cases hr : r = []
  · subst hr; simp [mkdirs]
  · rw [mkdirs_absolute treeConn r t hr]
    simp [treeConn_zkExists, h]

/-- In a tree that satisfies the invariant, a path that exists has all its
ancestor prefixes. -/
theorem ParentClosed_prefixes (t : Tree) (ht : t.ParentClosed) (segs : List (List Char)) :
    (∀ s ∈ segs, '/' ∉ s) → ∀ acc : List Char, t.has (acc ++ joinPath segs) = true →
      ∀ q ∈ prefixesFrom acc segs, t.has q = true := by
  induction segs using List.reverseRecOn with
  | nil => intro _ acc _ q hq; simp [prefixesFrom] at hq
  | append_singleton xs s ih =>
    intro hseg acc hhas q hq
    have hs : '/' ∉ s := hseg s (by simp)
    have hxs : ∀ x ∈ xs, '/' ∉ x := fun x hx => hseg x (by simp [hx])
    rw [joinPath_snoc] at hhas
    rw [prefixesFrom_snoc] at hq
    rcases List.mem_append.1 hq with h | h
    · have hne : xs ≠ [] := by
        intro h0; subst h0; simp [prefixesFrom] at h
      have hacc : acc ++ joinPath xs ≠ [] := by
        cases xs with
        | nil => exact absurd rfl hne
        | cons x xs => simp [joinPath]
      have hlen : 2 ≤ (acc ++ joinPath xs ++ '/' :: s).length := by
        have : 0 < (acc ++ joinPath xs).length := List.length_pos.2 hacc
        simp only [List.length_append, List.length_cons] at this ⊢
        omega
      have hhas' : t.has (acc ++ joinPath xs ++ '/' :: s) = true := by
        simpa using hhas
      rcases (Tree.has_iff t _).1 hhas' with h1 | ⟨n, hn, h1⟩
      · rw [h1] at hlen; simp at hlen
      · have := ht n hn
        rw [h1, parentPath_snoc _ _ hs, if_neg hacc] at this
        exact ih hxs acc this q h
    · simp only [List.mem_singleton] at h
      subst h
      simpa using hhas

theorem regPath_length (plugin : ZooKeeperRegisterPlugin) (name : List Char) :
    (regPath plugin name).length =
      (plugin.BasePath ++ ['/'] ++ name).length + 1 + plugin.ServiceAddress.length := by
  simp [regPath]; omega

theorem regPath_ne_root (plugin : ZooKeeperRegisterPlugin) (name : List Char) :
    regPath plugin name ≠ ['/'] := by
  intro h
  have := regPath_length plugin name
  rw [h] at this
  simp at this
  omega

theorem regPath_ne_servicePath (plugin : ZooKeeperRegisterPlugin) (name : List Char) :
    plugin.BasePath ++ ['/'] ++ name ≠ regPath plugin name := by
  intro h
  have := regPath_length plugin name
  rw [← h] at this
  omega

/-- The tree after a delete, whether it found the node or not. -/
theorem treeConn_zkDelete_snd (t : Tree) (p : List Char) (v : Int) :
    (treeConn.zkDelete t p v).2 = t.filter (fun n => n.path != p) := by
  by_cases h : t.any (fun n => n.path == p) = true
  · simp only [treeConn]
    rw [if_pos h]
  · have h' : ∀ n ∈ t, n.path ≠ p := by simpa using h
    have hf : t.filter (fun n => n.path != p) = t :=
      List.filter_eq_self.2 (fun n hn => by simpa using h' n hn)
    rw [hf]
    simp only [treeConn]
    rw [if_neg h]

theorem Tree.has_filter_self (t : Tree) (p : List Char) (hp : p ≠ ['/']) :
    Tree.has (t.filter (fun n => n.path != p)) p = false := by
  rw [Tree.has_false_iff]
  refine ⟨hp, ?_⟩
  intro n hn
  simpa using (List.mem_filter.1 hn).2

theorem Tree.has_filter_ne (t : Tree) (p q : List Char) (hq : q ≠ p)
    (h : t.has q = true) : Tree.has (t.filter (fun n => n.path != p)) q = true := by
  rcases (Tree.has_iff t q).1 h with h1 | ⟨n, hn, h1⟩
  · exact (Tree.has_iff _ q).2 (Or.inl h1)
  · refine (Tree.has_iff _ q).2 (Or.inr ⟨n, List.mem_filter.2 ⟨hn, ?_⟩, h1⟩)
    simpa [h1] using hq

/-- A create that returns no error found the node missing and added it. -/
theorem treeConn_zkCreate_none (t : Tree) (p d : List Char) (f : Int) (a : List ACL)
    (h : (treeConn.zkCreate t p d f a).2.1 = none) :
    t.has p = false ∧
    (treeConn.zkCreate t p d f a).2.2 = { path := p, data := d, flags := f, acl := a } :: t := by
  by_cases h1 : t.has p = true
  · rw [treeConn_zkCreate_exists t p d f a h1] at h; simp at h
  · have h1' : t.has p = false := by simpa using h1
    by_cases h2 : t.has (parentPath p) = true
    · exact ⟨h1', by rw [treeConn_zkCreate_ok t p d f a h1' h2]⟩
    · have h2' : t.has (parentPath p) = false := by simpa using h2
      rw [treeConn_zkCreate_noparent t p d f a h1' h2'] at h; simp at h

/-- A create never removes a node. -/
theorem treeConn_zkCreate_mono (t : Tree) (p d : List Char) (f : Int) (a : List ACL) :
    ∀ n ∈ t, n ∈ (treeConn.zkCreate t p d f a).2.2 := by
  intro n hn
  by_cases h1 : t.has p = true
  · rw [treeConn_zkCreate_exists t p d f a h1]; exact hn
  · have h1' : t.has p = false := by simpa using h1
    by_cases h2 : t.has (parentPath p) = true
    · rw [treeConn_zkCreate_ok t p d f a h1' h2]; exact List.mem_cons_of_mem _ hn
    · have h2' : t.has (parentPath p) = false := by simpa using h2
      rw [treeConn_zkCreate_noparent t p d f a h1' h2']; exact hn

/-- The method `Register` on the tree model, by its steps: `mkdirs`, then the removal
of whatever is at the registration path, then the create of the ephemeral node. -/
theorem Register_tree (t : Tree) (plugin : ZooKeeperRegisterPlugin) (name : List Char)
    (hm : (mkdirs treeConn (plugin.BasePath ++ ['/'] ++ name) t).1 = none) :
    (Register treeConn plugin name t).1 =
      (treeConn.zkCreate
        ((mkdirs treeConn (plugin.BasePath ++ ['/'] ++ name) t).2.filter
          (fun n => n.path != regPath plugin name))
        (regPath plugin name) [] FlagEphemeral (WorldACL PermAll)).2.1 ∧
    (Register treeConn plugin name t).2.1 =
      (treeConn.zkCreate
        ((mkdirs treeConn (plugin.BasePath ++ ['/'] ++ name) t).2.filter
          (fun n => n.path != regPath plugin name))
        (regPath plugin name) [] FlagEphemeral (WorldACL PermAll)).2.2 := by
  rcases hmk : mkdirs treeConn (plugin.BasePath ++ ['/'] ++ name) t with ⟨e, t0⟩
  rw [hmk] at hm
  simp only at hm
  subst hm
  have hrp : plugin.BasePath ++ ['/'] ++ name ++ ['/'] ++ plugin.ServiceAddress
      = regPath plugin name := rfl
  simp only [Register, hmk, hrp, treeConn_zkExists]
  cases hb : t0.has (regPath plugin name) with
  | true =>
    simp only
    rw [← treeConn_zkDelete_snd t0 (regPath plugin name) (-1)]
    exact ⟨rfl, rfl⟩
  | false =>
    simp only
    have hf : t0.filter (fun n => n.path != regPath plugin name) = t0 :=
      List.filter_eq_self.2 (fun n hn => by
        simpa using ((Tree.has_false_iff t0 _).1 hb).2 n hn)
    rw [hf]
    exact ⟨rfl, rfl⟩

/-- The method `Unregister` on the tree model removes whatever is at the registration
path and nothing else. -/
theorem Unregister_tree (t : Tree) (plugin : ZooKeeperRegisterPlugin) (name : List Char) :
    (Unregister treeConn plugin name t).1 =
      t.filter (fun n => n.path != regPath plugin name) := by
  have hrp : plugin.BasePath ++ ['/'] ++ name ++ ['/'] ++ plugin.ServiceAddress
      = regPath plugin name := rfl
  simp only [Unregister, hrp, treeConn_zkExists]
  cases hb : t.has (regPath plugin name) with
  | true =>
    simp only
    have h := treeConn_zkDelete_snd t (regPath plugin name) (-1)
    rcases hd : treeConn.zkDelete t (regPath plugin name) (-1) with ⟨e, t1⟩
    rw [hd] at h
    simp only at h
    subst h
    cases e <;> rfl
  | false =>
    simp only
    exact (List.filter_eq_self.2 (fun n hn => by
        simpa using ((Tree.has_false_iff t _).1 hb).2 n hn)).symm

/-! ## Properties on the tree model -/

/-- C2: on the tree model, for every tree (a set of nodes in which the parent of every
node exists) and every absolute path `P`, in particular every well-formed one,
`mkdirs(P)` returns no error; afterwards `P` and every ancestor prefix of `P` exist;
each of them that was missing is now the persistent node with flags `0` and empty
content; nothing else was added; every node that existed before is still there; and
the result is again a tree. -/
theorem mkdirs_creates_ancestors (t : Tree) (P : List Char) (ht : t.ParentClosed)
    (hP : P.head? = some '/') :
    (mkdirs treeConn P t).1 = none ∧
    (∀ q ∈ ancestorPrefixes P, (mkdirs treeConn P t).2.has q = true) ∧
    (∀ q ∈ ancestorPrefixes P, t.has q = false → placeholder q ∈ (mkdirs treeConn P t).2) ∧
    (∀ n ∈ (mkdirs treeConn P t).2,
      n ∈ t ∨ ∃ q ∈ ancestorPrefixes P, n = placeholder q ∧ t.has q = false) ∧
    (∀ n ∈ t, n ∈ (mkdirs treeConn P t).2) ∧
    ((mkdirs treeConn P t).2).ParentClosed := by
  obtain ⟨r, rfl⟩ : ∃ r, P = '/' :: r := by
    cases P with
    | nil => simp at hP
    | cons a r => simp at hP; exact ⟨r, by rw [hP]⟩
  obtain ⟨h1, h2, h3, h4, h5⟩ := mkdirs_tree t r
  have hall : ∀ q ∈ ancestorPrefixes ('/' :: r),
      (mkdirs treeConn ('/' :: r) t).2.has q = true := by
    have hh : (mkdirs treeConn ('/' :: r) t).2.has ([] ++ joinPath (splitOn '/' r)) = true := by
      rw [joinPath_splitOn]; exact h3
    exact ParentClosed_prefixes _ (h5 ht) (splitOn '/' r) (splitOn_slash_free r) [] hh
  refine ⟨h1, hall, ?_, h4, h2, h5 ht⟩
  intro q hq hmiss
  have hne : q ≠ ['/'] := ((Tree.has_false_iff t q).1 hmiss).1
  rcases (Tree.has_iff _ q).1 (hall q hq) with h | ⟨n, hn, hpath⟩
  · exact absurd h hne
  · rcases h4 n hn with h | ⟨q', _, hn', _⟩
    · have := ((Tree.has_false_iff t q).1 hmiss).2 n h
      exact absurd hpath this
    · have : q' = q := by rw [hn'] at hpath; exact hpath
      rw [hn', this] at hn
      exact hn

/-- Witness of C2: `mkdirs("/rpcx/Arith/v1")` on the tree that holds `"/rpcx"` only
creates `"/rpcx/Arith"` and `"/rpcx/Arith/v1"`. -/
theorem mkdirs_creates_ancestors_witness :
    ancestorPrefixes "/rpcx/Arith/v1".toList =
      ["/rpcx".toList, "/rpcx/Arith".toList, "/rpcx/Arith/v1".toList] ∧
    (mkdirs treeConn "/rpcx/Arith/v1".toList [placeholder "/rpcx".toList]).1 = none ∧
    placeholder "/rpcx/Arith".toList ∈
      (mkdirs treeConn "/rpcx/Arith/v1".toList [placeholder "/rpcx".toList]).2 ∧
    placeholder "/rpcx/Arith/v1".toList ∈
      (mkdirs treeConn "/rpcx/Arith/v1".toList [placeholder "/rpcx".toList]).2 :=
  have h := mkdirs_creates_ancestors [placeholder "/rpcx".toList] "/rpcx/Arith/v1".toList
    (by decide) (by decide)
  ⟨by decide, h.1, h.2.2.1 _ (by decide) (by decide), h.2.2.1 _ (by decide) (by decide)⟩

/-- C9: `mkdirs` is idempotent on the tree model.  For every tree and every path `P`, in
particular every well-formed absolute one: when `mkdirs(P)` returns no error, a second
`mkdirs(P)` on the resulting tree returns no error and leaves that tree unchanged,
and the only call it issues is the existence check of `P` (none at all for `"/"`):
no create, no duplicate node. -/
theorem mkdirs_idempotent (t : Tree) (P : List Char) (h : (mkdirs treeConn P t).1 = none) :
    mkdirs (logged treeConn) P ((mkdirs treeConn P t).2, []) =
      (none, ((mkdirs treeConn P t).2, if P = ['/'] then [] else [Call.Exists P])) := by
  cases P with
  | nil => simp [mkdirs] at h
  | cons ch r =>
    by_cases hch : ch = '/'
    · subst hch
      by_cases hr : r = []
      · subst hr; simp [mkdirs]
      · have hhas := (mkdirs_tree t r).2.2.1
        rw [mkdirs_absolute (logged treeConn) r _ hr]
        simp [logged_zkExists, treeConn_zkExists, hhas, hr]
    · simp [mkdirs, hch] at h

/-- Witness of C9: `mkdirs("/rpcx/Arith")` twice, from the empty tree. -/
theorem mkdirs_idempotent_witness :
    mkdirs (logged treeConn) "/rpcx/Arith".toList
        ((mkdirs treeConn "/rpcx/Arith".toList []).2, []) =
      (none, ([placeholder "/rpcx/Arith".toList, placeholder "/rpcx".toList],
        [Call.Exists "/rpcx/Arith".toList])) :=
  mkdirs_idempotent [] "/rpcx/Arith".toList (by decide)

/-- The method `Register` on the tree model, for an absolute `BasePath` and a slash-free
`ServiceAddress`: it returns no error, and the tree is the one `mkdirs` left, without
whatever was at the registration path, plus the ephemeral node. -/
theorem Register_tree_ok (t : Tree) (plugin : ZooKeeperRegisterPlugin) (name : List Char)
    (hb : plugin.BasePath.head? = some '/') (ha : '/' ∉ plugin.ServiceAddress) :
    (Register treeConn plugin name t).1 = none ∧
    (Register treeConn plugin name t).2.1 =
      ephemeral (regPath plugin name) ::
        (mkdirs treeConn (plugin.BasePath ++ ['/'] ++ name) t).2.filter
          (fun n => n.path != regPath plugin name) := by
  obtain ⟨b, hB⟩ : ∃ b, plugin.BasePath = '/' :: b := by
    cases hbp : plugin.BasePath with
    | nil => rw [hbp] at hb; simp at hb
    | cons a r => rw [hbp] at hb; simp at hb; exact ⟨r, by rw [hb]⟩
  have hpath : plugin.BasePath ++ ['/'] ++ name = '/' :: (b ++ ['/'] ++ name) := by
    rw [hB]; simp
  have hne : plugin.BasePath ++ ['/'] ++ name ≠ [] := by rw [hpath]; simp
  have hrp : regPath plugin name
      = (plugin.BasePath ++ ['/'] ++ name) ++ '/' :: plugin.ServiceAddress := by
    simp [regPath]
  obtain ⟨hm1, _, hm3, _, _⟩ := mkdirs_tree t (b ++ ['/'] ++ name)
  rw [← hpath] at hm1 hm3
  obtain ⟨hr1, hr2⟩ := Register_tree t plugin name hm1
  have hmiss := Tree.has_filter_self (mkdirs treeConn (plugin.BasePath ++ ['/'] ++ name) t).2
    (regPath plugin name) (regPath_ne_root plugin name)
  have hpar : Tree.has ((mkdirs treeConn (plugin.BasePath ++ ['/'] ++ name) t).2.filter
      (fun n => n.path != regPath plugin name)) (parentPath (regPath plugin name)) = true := by
    rw [hrp, parentPath_snoc _ _ ha, if_neg hne, ← hrp]
    exact Tree.has_filter_ne _ _ _ (regPath_ne_servicePath plugin name) hm3
  rw [treeConn_zkCreate_ok _ _ [] FlagEphemeral (WorldACL PermAll) hmiss hpar] at hr1 hr2
  exact ⟨hr1, hr2⟩

theorem Register_tree_mono (t : Tree) (plugin : ZooKeeperRegisterPlugin) (name : List Char) :
    ∀ n ∈ t, n.path ≠ regPath plugin name → n ∈ (Register treeConn plugin name t).2.1 := by
  intro n hn hp
  have hn0 := mkdirs_tree_mono t (plugin.BasePath ++ ['/'] ++ name) n hn
  cases hm : (mkdirs treeConn (plugin.BasePath ++ ['/'] ++ name) t).1 with
  | some e =>
    rw [Register_of_mkdirs_error treeConn plugin name t e hm]
    exact hn0
  | none =>
    rw [(Register_tree t plugin name hm).2]
    apply treeConn_zkCreate_mono
    exact List.mem_filter.2 ⟨hn0, by simpa using hp⟩

theorem Unregister_tree_mono (t : Tree) (plugin : ZooKeeperRegisterPlugin) (name : List Char) :
    ∀ n ∈ t, n.path ≠ regPath plugin name → n ∈ (Unregister treeConn plugin name t).1 := by
  intro n hn hp
  rw [Unregister_tree]
  exact List.mem_filter.2 ⟨hn, by simpa using hp⟩

/-- A node whose path is not the registration path of any call of a sequence is still
there after the sequence. -/
theorem runOps_tree_mono (ops : List Op) :
    ∀ (t : Tree), ∀ n ∈ t, (∀ op ∈ ops, n.path ≠ op.regPath) → n ∈ runOps treeConn ops t := by
  induction ops with
  | nil => intro t n hn _; exact hn
  | cons op ops ih =>
    intro t n hn h
    rw [runOps_cons]
    apply ih _ n _ (fun o ho => h o (List.mem_cons_of_mem _ ho))
    have hop := h op (by simp)
    cases op with
    | register plugin name => exact Register_tree_mono t plugin name n hn hop
    | unregister plugin name => exact Unregister_tree_mono t plugin name n hn hop

theorem prefixesFrom_prefix (segs : List (List Char)) :
    ∀ (acc q : List Char), q ∈ prefixesFrom acc segs → q <+: acc ++ joinPath segs := by
  induction segs with
  | nil => intro acc q h; simp [prefixesFrom] at h
  | cons p ps ih =>
    intro acc q h
    have hj : acc ++ joinPath (p :: ps) = (acc ++ '/' :: p) ++ joinPath ps := by
      simp [joinPath]
    rw [hj]
    simp only [prefixesFrom, List.mem_cons] at h
    rcases h with h | h
    · subst h; exact List.prefix_append _ _
    · exact ih _ q h

/-- An ancestor prefix of an absolute path has no more slashes than the path. -/
theorem ancestorPrefixes_count (r q : List Char) (h : q ∈ ancestorPrefixes ('/' :: r)) :
    q.count '/' ≤ ('/' :: r).count '/' := by
  have hp := prefixesFrom_prefix (splitOn '/' r) [] q h
  rw [List.nil_append, joinPath_splitOn] at hp
  exact hp.sublist.count_le _

/-- With an absolute `BasePath` and slash-free names and `ServiceAddress`, no ancestor
prefix of a service path is a registration node path. -/
theorem ancestor_ne_regPath (plugin : ZooKeeperRegisterPlugin) (name0 name q : List Char)
    (hb : plugin.BasePath.head? = some '/') (ha : '/' ∉ plugin.ServiceAddress)
    (h0 : '/' ∉ name0) (hn : '/' ∉ name)
    (hq : q ∈ ancestorPrefixes (plugin.BasePath ++ ['/'] ++ name0)) :
    q ≠ regPath plugin name := by
  obtain ⟨b, hB⟩ : ∃ b, plugin.BasePath = '/' :: b := by
    cases hbp : plugin.BasePath with
    | nil => rw [hbp] at hb; simp at hb
    | cons a r => rw [hbp] at hb; simp at hb; exact ⟨r, by rw [hb]⟩
  have hpath : plugin.BasePath ++ ['/'] ++ name0 = '/' :: (b ++ ['/'] ++ name0) := by
    rw [hB]; simp
  rw [hpath] at hq
  have hc := ancestorPrefixes_count _ q hq
  intro heq
  rw [heq, ← hpath] at hc
  have c0 : name0.count '/' = 0 := List.count_eq_zero.2 h0
  have c1 : name.count '/' = 0 := List.count_eq_zero.2 hn
  have c2 : plugin.ServiceAddress.count '/' = 0 := List.count_eq_zero.2 ha
  simp only [regPath, List.count_append, List.count_singleton_self, c0, c1, c2] at hc
  omega

/-! ## Properties over an arbitrary connection -/

/-- C4: `mkdirs` checks its path before it uses the connection.  On every connection
(instrumented, from any state and log): the empty path gives the empty-path error, a
non-empty path whose first character is not `'/'` gives the not-absolute error, which is
a different error, and `"/"` gives success; in the three cases the state of the service
and the log of issued calls are returned unchanged, so that no call was issued. -/
theorem mkdirs_validates_path {σ : Type} (c : Conn σ) (s : σ) (l : List Call) :
    mkdirs (logged c) [] (s, l) = (some GoError.pathEmpty, (s, l)) ∧
    (∀ (ch : Char) (rest : List Char), ch ≠ '/' →
      mkdirs (logged c) (ch :: rest) (s, l) = (some GoError.pathNotAbsolute, (s, l))) ∧
    mkdirs (logged c) ['/'] (s, l) = (none, (s, l)) ∧
    GoError.pathNotAbsolute ≠ GoError.pathEmpty := by
  refine ⟨by simp [mkdirs], ?_, by simp [mkdirs], by decide⟩
  intro ch rest h
  simp [mkdirs, h]

/-- Witness of C4 on the tree model: `mkdirs("relative/path")` on the empty tree. -/
theorem mkdirs_validates_path_witness :
    mkdirs (logged treeConn) "relative/path".toList ([], []) =
      (some GoError.pathNotAbsolute, ([], [])) :=
  (mkdirs_validates_path treeConn [] []).2.1 'r' "elative/path".toList (by decide)

/-- C6, as stated, fails: against a peer that creates `"/a"` between the walk's
existence check and its create, the create of the accumulated prefix `"/a"` fails with
`ErrNodeExists`; `mkdirs("/a/b")` then returns `ErrNodeExists` instead of going on to
`"/a/b"`: the last call it issued is that create.  Likewise on a service whose only
answer to a create is `ErrNodeExists`, `mkdirs("/a")` returns `ErrNodeExists`. -/
theorem mkdirs_node_exists_not_tolerated :
    (racyConn.zkExists [] "/a".toList).1 = false ∧
    (racyConn.zkCreate (racyConn.zkExists [] "/a".toList).2.2 "/a".toList [] 0
      (WorldACL PermAll)).2.1 = some GoError.ErrNodeExists ∧
    (mkdirs (logged racyConn) "/a/b".toList ([], [])).1 = some GoError.ErrNodeExists ∧
    (mkdirs (logged racyConn) "/a/b".toList ([], [])).2.2 =
      [Call.Exists "/a/b".toList, Call.Create "/a/b".toList [] 0 (WorldACL PermAll),
       Call.Exists "/a".toList, Call.Create "/a".toList [] 0 (WorldACL PermAll)] ∧
    (mkdirs busyConn "/a".toList ()).1 = some GoError.ErrNodeExists := by
  decide

/-- C6, amended: in the fallback walk of `mkdirs`, an accumulated prefix that the
existence check reports as present is skipped, and every create error aborts the walk
and is the error `mkdirs` returns, a node-already-exists error like any other.  On
every connection, when the first existence check is negative and the direct create
fails, and the walk has passed the segments `pre` without error, then for the next
accumulated prefix `joinPath pre + "/" + p`:
* when its existence check is positive, `mkdirs` goes on with the remaining segments
  from the state that existence check left: no create is issued for that prefix;
* when its existence check is negative and its create fails with `e`, whatever `e` is,
  `mkdirs` returns `e` and the state that create left: the remaining segments are not
  visited. -/
theorem mkdirs_walk_skip_or_abort {σ : Type} (c : Conn σ) (r : List Char) (s s3 : σ)
    (pre : List (List Char)) (p : List Char) (ps : List (List Char)) (e1 : GoError)
    (hr : r ≠ [])
    (hx : (c.zkExists s ('/' :: r)).1 = false)
    (hc : (c.zkCreate (c.zkExists s ('/' :: r)).2.2 ('/' :: r) [] 0 (WorldACL PermAll)).2.1
      = some e1)
    (hsplit : splitOn '/' r = pre ++ p :: ps)
    (hpre : mkdirsWalk c pre []
      (c.zkCreate (c.zkExists s ('/' :: r)).2.2 ('/' :: r) [] 0 (WorldACL PermAll)).2.2
      = (none, s3)) :
    ((c.zkExists s3 (joinPath pre ++ '/' :: p)).1 = true →
      mkdirs c ('/' :: r) s =
        mkdirsWalk c ps (joinPath pre ++ '/' :: p)
          (c.zkExists s3 (joinPath pre ++ '/' :: p)).2.2) ∧
    ((c.zkExists s3 (joinPath pre ++ '/' :: p)).1 = false →
      ∀ e : GoError,
        (c.zkCreate (c.zkExists s3 (joinPath pre ++ '/' :: p)).2.2 (joinPath pre ++ '/' :: p)
          [] 0 (WorldACL PermAll)).2.1 = some e →
        mkdirs c ('/' :: r) s =
          (some e, (c.zkCreate (c.zkExists s3 (joinPath pre ++ '/' :: p)).2.2
            (joinPath pre ++ '/' :: p) [] 0 (WorldACL PermAll)).2.2)) := by
  have hm : mkdirs c ('/' :: r) s = mkdirsWalk c (p :: ps) (joinPath pre) s3 := by
    rw [mkdirs_absolute c r s hr]
    simp only [hx, hc, hsplit, Bool.false_eq_true, if_false]
    rw [mkdirsWalk_append, hpre]
    simp only [List.nil_append]
  rw [hm, mkdirsWalk_cons]
  constructor
  · intro h
    simp only [h, if_true]
  · intro h e he
    simp only [h, he, Bool.false_eq_true, if_false]

/-- Witness of the amended C6.  Skip: on the tree that holds `"/rpcx"` only,
`mkdirs("/rpcx/Arith/v1")` falls back to the walk, finds `"/rpcx"` present and issues
no create for it.  Abort: against the racing peer, the create of `"/a"` fails with
`ErrNodeExists` and `mkdirs("/a/b")` returns it. -/
theorem mkdirs_walk_skip_or_abort_witness :
    mkdirs (logged treeConn) "/rpcx/Arith/v1".toList ([placeholder "/rpcx".toList], []) =
      (none,
        ([placeholder "/rpcx/Arith/v1".toList, placeholder "/rpcx/Arith".toList,
          placeholder "/rpcx".toList],
         [Call.Exists "/rpcx/Arith/v1".toList,
          Call.Create "/rpcx/Arith/v1".toList [] 0 (WorldACL PermAll),
          Call.Exists "/rpcx".toList,
          Call.Exists "/rpcx/Arith".toList,
          Call.Create "/rpcx/Arith".toList [] 0 (WorldACL PermAll),
          Call.Exists "/rpcx/Arith/v1".toList,
          Call.Create "/rpcx/Arith/v1".toList [] 0 (WorldACL PermAll)])) ∧
    mkdirs racyConn "/a/b".toList [] =
      (some GoError.ErrNodeExists,
        [{ path := "/a".toList, data := [], flags := 0, acl := WorldACL PermAll }]) :=
  ⟨(mkdirs_walk_skip_or_abort (logged treeConn) "rpcx/Arith/v1".toList
      ([placeholder "/rpcx".toList], [])
      ([placeholder "/rpcx".toList],
        [Call.Exists "/rpcx/Arith/v1".toList,
         Call.Create "/rpcx/Arith/v1".toList [] 0 (WorldACL PermAll)])
      [] "rpcx".toList ["Arith".toList, "v1".toList] GoError.ErrNoNode
      (by decide) (by decide) (by decide) (by decide) (by decide)).1 (by decide),
   (mkdirs_walk_skip_or_abort racyConn "a/b".toList [] [] [] "a".toList ["b".toList]
      GoError.ErrNoNode (by decide) (by decide) (by decide) (by decide) (by decide)).2
      (by decide) GoError.ErrNodeExists (by decide)⟩

/-- C7: `Register` runs `mkdirs` on `BasePath + "/" + name` first and returns its
error.  On every connection (instrumented, starting from an empty log): when that
`mkdirs` returns the error `e`, `Register` returns `e` with the state, the log and the
output exactly as `mkdirs` left them, so it issued no further call; and no call in the
log is about the registration node path. -/
theorem Register_propagates_mkdirs_error {σ : Type} (c : Conn σ)
    (plugin : ZooKeeperRegisterPlugin) (name : List Char) (s s1 : σ) (e : GoError)
    (l1 : List Call)
    (h : mkdirs (logged c) (plugin.BasePath ++ ['/'] ++ name) (s, []) = (some e, (s1, l1))) :
    Register (logged c) plugin name (s, []) = (some e, (s1, l1), []) ∧
    ∀ call ∈ l1, call.path ≠ regPath plugin name := by
  constructor
  · simp only [Register, h]
  · intro call hcall heq
    have hl := mkdirs_log c (plugin.BasePath ++ ['/'] ++ name) s [] call (by rw [h]; exact hcall)
    rcases hl with hl | ⟨_, hl⟩
    · simp at hl
    · rw [heq] at hl
      simp [regPath] at hl

/-- Witness of C7: with the racing peer, `mkdirs("/a/b")` fails with `ErrNodeExists`
after four calls. -/
theorem Register_propagates_mkdirs_error_witness :
    Register (logged racyConn)
        { ServiceAddress := "h:1".toList, ZooKeeperServers := [], BasePath := "/a".toList }
        "b".toList ([], []) =
      (some GoError.ErrNodeExists,
        ([{ path := "/a".toList, data := [], flags := 0, acl := WorldACL PermAll }],
         [Call.Exists "/a/b".toList, Call.Create "/a/b".toList [] 0 (WorldACL PermAll),
          Call.Exists "/a".toList, Call.Create "/a".toList [] 0 (WorldACL PermAll)]), []) :=
  (Register_propagates_mkdirs_error racyConn
    { ServiceAddress := "h:1".toList, ZooKeeperServers := [], BasePath := "/a".toList }
    "b".toList [] _ GoError.ErrNodeExists _ (by decide)).1

/-- C8, as stated, fails.  On the tree whose registration node
`"/rpcx/Arith/127.0.0.1:8972"` is a persistent node with a child, the delete fails with
`ErrNotEmpty`, the create fails with `ErrNodeExists`, and `Register` returns
`ErrNodeExists` (and has printed "delete: ok").  On a service where the registration
node exists, its delete fails and the create fails with `ErrNodeExists`, `Register`
returns `ErrNodeExists` whatever the delete failed with (`ErrNotEmpty` or `ErrNoAuth`):
the delete failure is not in the error returned.  The calls are: existence check of the
service path, existence check, delete and create of the registration node. -/
theorem Register_drops_delete_error :
    (strictConn.zkDelete
      occupiedTree
      (regPath rpcxPlugin "Arith".toList) (-1)).1 = some GoError.ErrNotEmpty ∧
    Register strictConn rpcxPlugin "Arith".toList
      occupiedTree
      = (some GoError.ErrNodeExists,
         occupiedTree,
         [Printed.deleteOk]) ∧
    ((stuckConn GoError.ErrNotEmpty).zkDelete () (regPath rpcxPlugin "Arith".toList) (-1)).1
      = some GoError.ErrNotEmpty ∧
    Register (stuckConn GoError.ErrNotEmpty) rpcxPlugin "Arith".toList ()
      = (some GoError.ErrNodeExists, (), [Printed.deleteOk]) ∧
    Register (stuckConn GoError.ErrNoAuth) rpcxPlugin "Arith".toList ()
      = (some GoError.ErrNodeExists, (), [Printed.deleteOk]) ∧
    (Register (logged (stuckConn GoError.ErrNotEmpty)) rpcxPlugin "Arith".toList ((), [])).2.1.2
      = [Call.Exists "/rpcx/Arith".toList,
         Call.Exists "/rpcx/Arith/127.0.0.1:8972".toList,
         Call.Delete "/rpcx/Arith/127.0.0.1:8972".toList (-1),
         Call.Create "/rpcx/Arith/127.0.0.1:8972".toList [] FlagEphemeral (WorldACL PermAll)] := by
  decide

/-- C8, amended: when a node exists at the registration path and its delete fails, the
failure is not fatal: `Register` goes on to create the ephemeral node on the state the
failed delete left, and what it returns is exactly the result of that create (no error
when it succeeds, the creation error when it fails); the delete error is dropped. -/
theorem Register_delete_failure_not_fatal {σ : Type} (c : Conn σ)
    (plugin : ZooKeeperRegisterPlugin) (name : List Char) (s s1 s2 s3 : σ)
    (e0 : Option GoError) (ed : GoError)
    (hm : mkdirs c (plugin.BasePath ++ ['/'] ++ name) s = (none, s1))
    (hx : c.zkExists s1 (regPath plugin name) = (true, e0, s2))
    (hd : c.zkDelete s2 (regPath plugin name) (-1) = (some ed, s3)) :
    Register c plugin name s =
      ((c.zkCreate s3 (regPath plugin name) [] FlagEphemeral (WorldACL PermAll)).2.1,
       (c.zkCreate s3 (regPath plugin name) [] FlagEphemeral (WorldACL PermAll)).2.2,
       [Printed.deleteOk]) := by
  simp only [regPath] at hx hd ⊢
  simp only [Register, hm, hx, hd]

/-- Witness of the amended C8: the registration node is a persistent node with a child,
its delete fails with `ErrNotEmpty`. -/
theorem Register_delete_failure_not_fatal_witness :
    Register strictConn rpcxPlugin "Arith".toList
      occupiedTree
      = (some GoError.ErrNodeExists,
         occupiedTree,
         [Printed.deleteOk]) :=
  Register_delete_failure_not_fatal strictConn rpcxPlugin "Arith".toList
    occupiedTree occupiedTree occupiedTree occupiedTree none GoError.ErrNotEmpty
    (by decide) (by decide) (by decide)

/-- C1: on the tree model, for every tree, `BasePath`, service name and
`ServiceAddress` (in particular those made of non-empty slash-free segments): when
`Register(name)` returns no error, a node exists afterwards at
`BasePath + "/" + name + "/" + ServiceAddress`, every node at that path is the one created
with the ephemeral flag and empty content, and after a following `Unregister(name)` no
node exists at that path. -/
theorem Register_then_Unregister (t : Tree) (plugin : ZooKeeperRegisterPlugin)
    (name : List Char) (h : (Register treeConn plugin name t).1 = none) :
    (Register treeConn plugin name t).2.1.has (regPath plugin name) = true ∧
    ephemeral (regPath plugin name) ∈ (Register treeConn plugin name t).2.1 ∧
    (∀ n ∈ (Register treeConn plugin name t).2.1,
      n.path = regPath plugin name → n = ephemeral (regPath plugin name)) ∧
    (Unregister treeConn plugin name (Register treeConn plugin name t).2.1).1.has
      (regPath plugin name) = false := by
  have hm : (mkdirs treeConn (plugin.BasePath ++ ['/'] ++ name) t).1 = none := by
    cases hm : (mkdirs treeConn (plugin.BasePath ++ ['/'] ++ name) t).1 with
    | none => rfl
    | some e =>
      rw [Register_of_mkdirs_error treeConn plugin name t e hm] at h
      simp at h
  obtain ⟨hr1, hr2⟩ := Register_tree t plugin name hm
  rw [hr1] at h
  obtain ⟨hmiss, hstate⟩ := treeConn_zkCreate_none _ _ _ _ _ h
  rw [hstate] at hr2
  rw [hr2]
  refine ⟨(Tree.has_cons _ _ _).2 (Or.inl rfl), List.mem_cons_self _ _, ?_, ?_⟩
  · intro n hn hp
    rcases List.mem_cons.1 hn with h1 | h1
    · exact h1
    · exact absurd hp (((Tree.has_false_iff _ _).1 hmiss).2 n h1)
  · rw [Unregister_tree]
    exact Tree.has_filter_self _ _ (regPath_ne_root plugin name)

/-- Witness of C1: `BasePath = "/rpcx"`, `ServiceAddress = "127.0.0.1:8972"`,
`name = "Arith"`, from the empty tree: the node is `"/rpcx/Arith/127.0.0.1:8972"`. -/
theorem Register_then_Unregister_witness :
    regPath rpcxPlugin "Arith".toList = "/rpcx/Arith/127.0.0.1:8972".toList ∧
    (Register treeConn rpcxPlugin "Arith".toList []).1 = none ∧
    ephemeral "/rpcx/Arith/127.0.0.1:8972".toList ∈
      (Register treeConn rpcxPlugin "Arith".toList []).2.1 ∧
    (Unregister treeConn rpcxPlugin "Arith".toList
      (Register treeConn rpcxPlugin "Arith".toList []).2.1).1.has
        "/rpcx/Arith/127.0.0.1:8972".toList = false :=
  have h := Register_then_Unregister [] rpcxPlugin "Arith".toList (by decide)
  ⟨by decide, by decide, h.2.1, h.2.2.2⟩

/-- C3: on the tree model, for every tree, every absolute `BasePath`, every
`ServiceAddress` without `'/'` and every name (in particular every well-formed
configuration): `Register(name)` twice in a row returns no error both times; the tree
after the second call is the tree after the first; and in it exactly one node is at the
registration path, the ephemeral one. -/
theorem Register_twice (t : Tree) (plugin : ZooKeeperRegisterPlugin) (name : List Char)
    (hb : plugin.BasePath.head? = some '/') (ha : '/' ∉ plugin.ServiceAddress) :
    (Register treeConn plugin name t).1 = none ∧
    (Register treeConn plugin name (Register treeConn plugin name t).2.1).1 = none ∧
    (Register treeConn plugin name (Register treeConn plugin name t).2.1).2.1 =
      (Register treeConn plugin name t).2.1 ∧
    (Register treeConn plugin name (Register treeConn plugin name t).2.1).2.1.filter
      (fun n => n.path == regPath plugin name) = [ephemeral (regPath plugin name)] := by
  obtain ⟨b, hB⟩ : ∃ b, plugin.BasePath = '/' :: b := by
    cases hbp : plugin.BasePath with
    | nil => rw [hbp] at hb; simp at hb
    | cons a r => rw [hbp] at hb; simp at hb; exact ⟨r, by rw [hb]⟩
  have hpath : plugin.BasePath ++ ['/'] ++ name = '/' :: (b ++ ['/'] ++ name) := by
    rw [hB]; simp
  obtain ⟨h1, h2⟩ := Register_tree_ok t plugin name hb ha
  obtain ⟨h3, h4⟩ := Register_tree_ok (Register treeConn plugin name t).2.1 plugin name hb ha
  have hm3 : (mkdirs treeConn (plugin.BasePath ++ ['/'] ++ name) t).2.has
      (plugin.BasePath ++ ['/'] ++ name) = true := by
    rw [hpath]; exact (mkdirs_tree t (b ++ ['/'] ++ name)).2.2.1
  have hhas : (Register treeConn plugin name t).2.1.has
      (plugin.BasePath ++ ['/'] ++ name) = true := by
    rw [h2]
    exact (Tree.has_cons _ _ _).2
      (Or.inr (Tree.has_filter_ne _ _ _ (regPath_ne_servicePath plugin name) hm3))
  have hmk : mkdirs treeConn (plugin.BasePath ++ ['/'] ++ name)
      (Register treeConn plugin name t).2.1 = (none, (Register treeConn plugin name t).2.1) := by
    rw [hpath] at hhas ⊢
    exact mkdirs_tree_of_has _ _ hhas
  have hsame : (Register treeConn plugin name (Register treeConn plugin name t).2.1).2.1 =
      (Register treeConn plugin name t).2.1 := by
    rw [h4, hmk]
    simp only
    rw [h2]
    simp [ephemeral, List.filter_cons]
  refine ⟨h1, h3, hsame, ?_⟩
  rw [hsame, h2]
  simp [ephemeral, List.filter_cons, List.filter_eq_nil_iff]

/-- Witness of C3: the end-to-end configuration, `Register("Arith")` twice from the
empty tree. -/
theorem Register_twice_witness :
    (Register treeConn rpcxPlugin "Arith".toList
      (Register treeConn rpcxPlugin "Arith".toList []).2.1).2.1 =
      [ephemeral "/rpcx/Arith/127.0.0.1:8972".toList, placeholder "/rpcx/Arith".toList,
       placeholder "/rpcx".toList] ∧
    (Register treeConn rpcxPlugin "Arith".toList
      (Register treeConn rpcxPlugin "Arith".toList []).2.1).2.1.filter
      (fun n => n.path == regPath rpcxPlugin "Arith".toList) =
      [ephemeral (regPath rpcxPlugin "Arith".toList)] :=
  ⟨by decide, (Register_twice [] rpcxPlugin "Arith".toList (by decide) (by decide)).2.2.2⟩

/-- C5: on the tree model, for every tree and every configuration: when no node exists
at `BasePath + "/" + name + "/" + ServiceAddress`, `Unregister(name)` (which has no error
result) leaves the tree as it was, prints nothing, and the only call it issues is the
existence check of that path: no delete. -/
theorem Unregister_never_registered (t : Tree) (l : List Call)
    (plugin : ZooKeeperRegisterPlugin) (name : List Char)
    (h : t.has (regPath plugin name) = false) :
    Unregister (logged treeConn) plugin name (t, l) =
      ((t, l ++ [Call.Exists (regPath plugin name)]), []) := by
  rw [Unregister_eq]
  simp [logged_zkExists, treeConn_zkExists, h]

/-- Witness of C5: `Unregister("Arith")` on the empty tree. -/
theorem Unregister_never_registered_witness :
    Unregister (logged treeConn) rpcxPlugin "Arith".toList ([], []) =
      (([], [Call.Exists "/rpcx/Arith/127.0.0.1:8972".toList]), []) :=
  Unregister_never_registered [] [] rpcxPlugin "Arith".toList (by decide)

/-- C10, as stated, fails.  On the empty tree, `Register("c")` with `BasePath = "/a/b"`
makes `mkdirs` create the persistent ancestor `"/a/b/c"`; after `Unregister("c")` of the
same plugin and `Unregister("b")` of a plugin with `BasePath = "/a"` and
`ServiceAddress = "c"`, whose registration node path is `"/a/b/c"`, that node no longer
exists: the last call issued is its delete.  With one plugin (`BasePath = "/rpcx"`,
`ServiceAddress = "y"`): `Register("x/y")` creates the persistent ancestor `"/rpcx/x/y"`,
and after `Unregister("x/y")` and `Unregister("x")` it no longer exists. -/
theorem ancestor_deleted_by_other_registration :
    "/a/b/c".toList ∈ ancestorPrefixes "/a/b/c".toList ∧
    placeholder "/a/b/c".toList ∈
      runOps treeConn
        [Op.register { ServiceAddress := "h:1".toList, ZooKeeperServers := [],
                       BasePath := "/a/b".toList } "c".toList] [] ∧
    (runOps treeConn
        [Op.register { ServiceAddress := "h:1".toList, ZooKeeperServers := [],
                       BasePath := "/a/b".toList } "c".toList,
         Op.unregister { ServiceAddress := "h:1".toList, ZooKeeperServers := [],
                         BasePath := "/a/b".toList } "c".toList,
         Op.unregister { ServiceAddress := "c".toList, ZooKeeperServers := [],
                         BasePath := "/a".toList } "b".toList] []).has "/a/b/c".toList = false ∧
    (runOps (logged treeConn)
        [Op.register { ServiceAddress := "h:1".toList, ZooKeeperServers := [],
                       BasePath := "/a/b".toList } "c".toList,
         Op.unregister { ServiceAddress := "h:1".toList, ZooKeeperServers := [],
                         BasePath := "/a/b".toList } "c".toList,
         Op.unregister { ServiceAddress := "c".toList, ZooKeeperServers := [],
                         BasePath := "/a".toList } "b".toList] ([], [])).2.getLast?
      = some (Call.Delete "/a/b/c".toList (-1)) ∧
    placeholder "/rpcx/x/y".toList ∈
      runOps treeConn
        [Op.register { ServiceAddress := "y".toList, ZooKeeperServers := [],
                       BasePath := "/rpcx".toList } "x/y".toList] [] ∧
    (runOps treeConn
        [Op.register { ServiceAddress := "y".toList, ZooKeeperServers := [],
                       BasePath := "/rpcx".toList } "x/y".toList,
         Op.unregister { ServiceAddress := "y".toList, ZooKeeperServers := [],
                         BasePath := "/rpcx".toList } "x/y".toList,
         Op.unregister { ServiceAddress := "y".toList, ZooKeeperServers := [],
                         BasePath := "/rpcx".toList } "x".toList] []).has "/rpcx/x/y".toList
      = false ∧
    (runOps strictConn
        [Op.register { ServiceAddress := "h:1".toList, ZooKeeperServers := [],
                       BasePath := "/a/b".toList } "c".toList,
         Op.unregister { ServiceAddress := "h:1".toList, ZooKeeperServers := [],
                         BasePath := "/a/b".toList } "c".toList,
         Op.unregister { ServiceAddress := "c".toList, ZooKeeperServers := [],
                         BasePath := "/a".toList } "b".toList] []).has "/a/b/c".toList = false := by
  decide

/-- C10, amended: for every sequence of `Register` and `Unregister` calls, with any names
and any configurations: on every connection, every delete that is issued is at the
registration node path `BasePath + "/" + name + "/" + ServiceAddress` of one of the calls;
on the tree model, from every tree, every node whose path is not the registration node
path of one of the calls (an ancestor created by `mkdirs` or any other) still exists,
unchanged, after the sequence; and that is so for every node at an ancestor prefix of a
service path `BasePath + "/" + name` when all the calls are on one plugin with an
absolute `BasePath` and the names and the `ServiceAddress` have no `'/'`. -/
theorem only_registration_paths_deleted (ops : List Op) :
    (∀ (σ : Type) (c : Conn σ) (s : σ), ∀ call ∈ (runOps (logged c) ops (s, [])).2,
      call.isDelete = true → ∃ op ∈ ops, call.path = op.regPath) ∧
    (∀ (t : Tree), ∀ n ∈ t, (∀ op ∈ ops, n.path ≠ op.regPath) →
      n ∈ runOps treeConn ops t) ∧
    (∀ (plugin : ZooKeeperRegisterPlugin) (name0 : List Char) (t : Tree),
      plugin.BasePath.head? = some '/' → '/' ∉ plugin.ServiceAddress → '/' ∉ name0 →
      (∀ op ∈ ops, op.plugin = plugin ∧ '/' ∉ op.name) →
      ∀ n ∈ t, n.path ∈ ancestorPrefixes (plugin.BasePath ++ ['/'] ++ name0) →
        n ∈ runOps treeConn ops t) := by
  refine ⟨?_, runOps_tree_mono ops, ?_⟩
  · intro σ c s call hcall hdel
    rcases runOps_log c ops s [] call hcall with h | h | h
    · simp at h
    · rw [h] at hdel; simp at hdel
    · exact h
  · intro plugin name0 t hb ha h0 hops n hn hq
    apply runOps_tree_mono ops t n hn
    intro op hop
    obtain ⟨hp, hname⟩ := hops op hop
    have hrp : op.regPath = regPath plugin op.name := by
      cases op <;> simp only [Op.plugin] at hp <;> subst hp <;> rfl
    rw [hrp]
    exact ancestor_ne_regPath plugin name0 op.name n.path hb ha h0 hname hq

/-- Witness of the amended C10: after `Register("Arith")`, `Unregister("Arith")` and
`Register("Echo")` of the end-to-end configuration, the ancestor `"/rpcx/Arith"` created
by the first `Register` is still there. -/
theorem only_registration_paths_deleted_witness :
    placeholder "/rpcx/Arith".toList ∈
      runOps treeConn
        [Op.unregister rpcxPlugin "Arith".toList, Op.register rpcxPlugin "Echo".toList]
        (runOps treeConn [Op.register rpcxPlugin "Arith".toList] []) ∧
    placeholder "/rpcx".toList ∈
      runOps treeConn
        [Op.unregister rpcxPlugin "Arith".toList, Op.register rpcxPlugin "Echo".toList]
        (runOps treeConn [Op.register rpcxPlugin "Arith".toList] []) :=
  ⟨(only_registration_paths_deleted
      [Op.unregister rpcxPlugin "Arith".toList, Op.register rpcxPlugin "Echo".toList]).2.1
      (runOps treeConn [Op.register rpcxPlugin "Arith".toList] [])
      (placeholder "/rpcx/Arith".toList) (by decide) (by decide),
   (only_registration_paths_deleted
      [Op.unregister rpcxPlugin "Arith".toList, Op.register rpcxPlugin "Echo".toList]).2.2
      rpcxPlugin "Arith".toList
      (runOps treeConn [Op.register rpcxPlugin "Arith".toList] [])
      (by decide) (by decide) (by decide) (by decide)
      (placeholder "/rpcx".toList) (by decide) (by decide)⟩

end ZkRegister
